import Mathlib

/-!
Verification of the concurrent key/value store in `db.c`.

The database is a binary search tree whose nodes carry C strings (modelled as
`List Char`; the byte strings handled by the program are NUL-free, so C's
`strcmp` on them is exactly lexicographic comparison of the character lists).
The permanent sentinel `head` node has key `""` and value `""` and is the root
of every state; user data lives in its subtrees.

Every definition below is a direct translation of the corresponding function in
`db.c`; names are kept where Lean allows.  Allocation success is threaded as an
explicit boolean, since `malloc` failure is the one source of nondeterminism in
the translated fragment.
-/

set_option maxHeartbeats 1000000
set_option maxRecDepth 20000

namespace Db

/-- C's `strcmp`, on NUL-free byte strings represented as `List Char`. -/
def strcmp : List Char → List Char → Ordering
  | [], [] => .eq
  | [], _ :: _ => .lt
  | _ :: _, [] => .gt
  | a :: as, b :: bs =>
    if a < b then .lt else if b < a then .gt else strcmp as bs

/-- MAXLEN from `db.c`. -/
def MAXLEN : Nat := 256

/-- `snprintf(dst, MAXLEN, "%s", src)`: copies at most `MAXLEN - 1 = 255`
characters (plus the terminating NUL, which the list representation drops). -/
def snprintf_copy (s : List Char) : List Char := s.take 255

/-- The tree of nodes.  `leaf` is the C null pointer; a `node` holds the
`name` (key) and `value` strings and the two child pointers. -/
inductive Tree where
  | leaf
  | node (name value : List Char) (lchild rchild : Tree)
  deriving DecidableEq, Repr

open Tree

/-- The sentinel root in its initial state: `node_t head = {"", "", 0, 0, ...}`. -/
def head0 : Tree := .node [] [] .leaf .leaf

/-- `node_constructor` from `db.c`: reject a key or value whose length exceeds
`MAXLEN`; then allocate (failure modelled by `allocOk = false`, covering both
`malloc` and `pthread_rwlock_init` failure); the key and value are copied with
`snprintf(..., MAXLEN, "%s", ...)`, hence truncated to 255 characters. -/
def node_constructor (arg_name arg_value : List Char) (allocOk : Bool) :
    Option Tree :=
  if arg_name.length > MAXLEN ∨ arg_value.length > MAXLEN then none
  else if allocOk = false then none
  else some (.node (snprintf_copy arg_name) (snprintf_copy arg_value) .leaf .leaf)

/-- The tree `db_add` links in place of the null child pointer: the constructed
node, or the null pointer itself when `node_constructor` returned 0 (the code
stores the result without checking it). -/
def newNode (name value : List Char) (allocOk : Bool) : Tree :=
  match node_constructor name value allocOk with
  | some t => t
  | none => .leaf

/-- The `search` routine of `db.c` as used by `db_query`: starting from the
locked node `parent` (initially `head`), choose the child by
`strcmp(name, parent->name) < 0`; a null child is NotFound; an equal-keyed
child is the target (its `value` is returned); otherwise recurse with the
child as the new parent.  The parent node itself is never tested for
equality. -/
def searchVal (name : List Char) : Tree → Option (List Char)
  | .leaf => none
  | .node pk _ l r =>
    if strcmp name pk = Ordering.lt then
      match l with
      | .leaf => none
      | .node nk nv nl nr =>
        if strcmp name nk = Ordering.eq then some nv
        else searchVal name (.node nk nv nl nr)
    else
      match r with
      | .leaf => none
      | .node nk nv nl nr =>
        if strcmp name nk = Ordering.eq then some nv
        else searchVal name (.node nk nv nl nr)

/-- `db_query`: `some value` for Found, `none` for "not found". -/
def db_query (name : List Char) (t : Tree) : Option (List Char) :=
  searchVal name t

/-- `db_add` from `db.c`.  Returns `(ret, tree')` where `ret` is the C return
value (`true` = 1 = "added", `false` = 0 = "already in database").  When the
descent finds a null child pointer, the code links `node_constructor`'s result
there unconditionally — even when the constructor failed and returned 0 — and
returns 1. -/
def db_add (name value : List Char) (allocOk : Bool) : Tree → Bool × Tree
  | .leaf => (true, .leaf)
  | .node pk pv l r =>
    if strcmp name pk = Ordering.lt then
      match l with
      | .leaf => (true, .node pk pv (newNode name value allocOk) r)
      | .node nk nv nl nr =>
        if strcmp name nk = Ordering.eq then
          (false, .node pk pv (.node nk nv nl nr) r)
        else
          let s := db_add name value allocOk (.node nk nv nl nr)
          (s.1, .node pk pv s.2 r)
    else
      match r with
      | .leaf => (true, .node pk pv l (newNode name value allocOk))
      | .node nk nv nl nr =>
        if strcmp name nk = Ordering.eq then
          (false, .node pk pv l (.node nk nv nl nr))
        else
          let s := db_add name value allocOk (.node nk nv nl nr)
          (s.1, .node pk pv l s.2)

/-- The successor-splice loop of `db_remove` (lines 164–188): walk the left
spine of the deleted node's right subtree; return the key/value of the
leftmost node together with the subtree after `*pnext = next->rchild` has
spliced that node out. -/
def spliceMin : Tree → (List Char × List Char) × Tree
  | .leaf => (([], []), .leaf)
  | .node k v l r =>
    match l with
    | .leaf => ((k, v), r)
    | .node nk nv nl nr =>
      let s := spliceMin (.node nk nv nl nr)
      (s.1, .node k v s.2 r)

/-- The replacement subtree `db_remove` leaves where the deleted node `dnode`
stood.  `dnode = node dk dv dl dr`:
right child null → `parent`'s edge gets `dnode->lchild`;
left child null → the edge gets `dnode->rchild`;
two children → `dnode` keeps its identity, its key/value are overwritten with
`snprintf(..., MAXLEN, ...)` copies of the in-order successor's key/value, and
the successor is spliced out of the right subtree.  (The code picks which
parent edge to overwrite by `strcmp(dnode->name, parent->name) < 0`, but
`dnode->name` equals the searched name, so this always designates exactly the
edge through which the search reached `dnode`; the splice is therefore
structural.) -/
def removeNode (dk dv : List Char) (dl dr : Tree) : Tree :=
  match dr with
  | .leaf => dl
  | .node rk rv rl rr =>
    match dl with
    | .leaf => .node rk rv rl rr
    | _ =>
      let s := spliceMin (.node rk rv rl rr)
      .node (snprintf_copy s.1.1) (snprintf_copy s.1.2) dl s.2

/-- `db_remove` from `db.c`.  Returns `(ret, tree')`; `ret` is `true` = 1 =
"removed", `false` = 0 = "not in database". -/
def db_remove (name : List Char) : Tree → Bool × Tree
  | .leaf => (false, .leaf)
  | .node pk pv l r =>
    if strcmp name pk = Ordering.lt then
      match l with
      | .leaf => (false, .node pk pv l r)
      | .node dk dv dl dr =>
        if strcmp name dk = Ordering.eq then
          (true, .node pk pv (removeNode dk dv dl dr) r)
        else
          let s := db_remove name (.node dk dv dl dr)
          (s.1, .node pk pv s.2 r)
    else
      match r with
      | .leaf => (false, .node pk pv l r)
      | .node dk dv dl dr =>
        if strcmp name dk = Ordering.eq then
          (true, .node pk pv l (removeNode dk dv dl dr))
        else
          let s := db_remove name (.node dk dv dl dr)
          (s.1, .node pk pv l s.2)

/-- One output line of `db_print_recurs`: the `(null)` marker, the `(root)`
marker printed for the sentinel, or a `name value` pair. -/
inductive Entry where
  | null
  | root
  | kv (name value : List Char)
  deriving DecidableEq, Repr

/-- `db_print_recurs`: pre-order, each line carrying its indentation level;
`isHead` is the pointer comparison `node == &head`, true only for the top
call. -/
def db_print_recurs : Tree → Bool → Nat → List (Nat × Entry)
  | .leaf, _, lvl => [(lvl, .null)]
  | .node k v l r, isHead, lvl =>
    (lvl, if isHead then Entry.root else Entry.kv k v) ::
      (db_print_recurs l false (lvl + 1) ++ db_print_recurs r false (lvl + 1))

/-- `db_print` on the whole database (the sink and file handling are I/O and
out of scope; the printed content is what matters). -/
def db_print (t : Tree) : List (Nat × Entry) := db_print_recurs t true 0

/-- The key/value pairs appearing in the dump output, in output order. -/
def dumpKVs (lines : List (Nat × Entry)) : List (List Char × List Char) :=
  lines.filterMap fun le =>
    match le.2 with
    | Entry.kv k v => some (k, v)
    | _ => none

/-- `db_cleanup_recurs`: post-order destruction; the returned list is the
sequence of `(name, value)` pairs of the destroyed nodes, in destruction
order. -/
def db_cleanup_recurs : Tree → List (List Char × List Char)
  | .leaf => []
  | .node k v l r => db_cleanup_recurs l ++ db_cleanup_recurs r ++ [(k, v)]

/-- `db_cleanup`: destroys `head.lchild` and `head.rchild` recursively; the
`head` node itself is never passed to `node_destructor`. -/
def db_cleanup : Tree → List (List Char × List Char)
  | .leaf => []
  | .node _ _ l r => db_cleanup_recurs l ++ db_cleanup_recurs r

/-- Pre-order key/value pairs of a tree (the specification's notion of the
tree's contents). -/
def preorderKV : Tree → List (List Char × List Char)
  | .leaf => []
  | .node k v l r => (k, v) :: (preorderKV l ++ preorderKV r)

/-- In-order keys of a tree. -/
def inorderKeys : Tree → List (List Char)
  | .leaf => []
  | .node k _ l r => inorderKeys l ++ k :: inorderKeys r

/-- `allB p t`: every key stored in `t` satisfies `p`. -/
def allB (p : List Char → Bool) : Tree → Bool
  | .leaf => true
  | .node k _ l r => p k && allB p l && allB p r

/-- The ordering invariant of the specification: at every node, every key of
the left subtree compares strictly less and every key of the right subtree
strictly greater (hence no duplicates). -/
def bst : Tree → Bool
  | .leaf => true
  | .node k _ l r =>
    allB (fun x => strcmp x k = Ordering.lt) l &&
      allB (fun x => strcmp x k = Ordering.gt) r && bst l && bst r

/-- Every key stored in the tree fits in a node buffer (at most 255
characters); true of every reachable state, since `node_constructor` and the
successor copy both truncate at 255. -/
def shortKeys (t : Tree) : Bool := allB (fun k => k.length ≤ 255) t

/-! ## The command interpreter (`interpret_command`) -/

/-- C's `isspace` for the default locale. -/
def isspace (c : Char) : Bool :=
  c = ' ' || c = '\t' || c = '\n' || c = (Char.ofNat 11) || c = (Char.ofNat 12) || c = '\r'

/-- `sscanf(s, "%255s", buf)`: skip leading whitespace, then read at most 255
non-whitespace characters; fail (return value < 1) when no character can be
read.  Returns the token and the unconsumed remainder. -/
def scanToken (s : List Char) : Option (List Char × List Char) :=
  let s' := s.dropWhile isspace
  let tok := (s'.takeWhile fun c => !isspace c).take 255
  if tok = [] then none else some (tok, s'.drop tok.length)

/-- The interpretation of one command line: which database call is made with
which arguments, `file` for the batch command, or the "ill-formed command"
reply. -/
inductive Cmd where
  | query (name : List Char)
  | add (name value : List Char)
  | del (name : List Char)
  | file (name : List Char)
  | illFormed
  deriving DecidableEq, Repr

/-- `interpret_command` from `db.c`: lines of `strlen <= 1` are ill-formed;
otherwise dispatch on `command[0]` alone, parsing the argument tokens from
`&command[1]` with `sscanf`. -/
def interpret_command : List Char → Cmd
  | [] => .illFormed
  | c :: rest =>
    if rest.length = 0 then .illFormed
    else if c = 'q' then
      match scanToken rest with
      | none => .illFormed
      | some (n, _) => .query n
    else if c = 'a' then
      match scanToken rest with
      | none => .illFormed
      | some (n, r2) =>
        match scanToken r2 with
        | none => .illFormed
        | some (v, _) => .add n v
    else if c = 'd' then
      match scanToken rest with
      | none => .illFormed
      | some (n, _) => .del n
    else if c = 'f' then
      match scanToken rest with
      | none => .illFormed
      | some (n, _) => .file n
    else .illFormed

/-! ## Lock traces

Each database operation is single-threaded over the tree; what claim C8 talks
about is the sequence of node-lock acquisitions and releases it performs.  We
instrument the code paths of `db_query`, `db_add` and `db_remove` with the
exact sequence of `pthread_rwlock_(rd|wr)lock` / `unlock` calls they make,
identifying a node by its path from `head` (`false` = left child, `true` =
right child).  The tree is not mutated between the events of one trace, so
paths identify nodes stably. -/

/-- A lock event on the node at the given path. -/
inductive Ev where
  | lock (p : List Bool)
  | unlock (p : List Bool)
  deriving DecidableEq, Repr

/-- The set of locks held, updated by one event. -/
def applyEv (held : List (List Bool)) : Ev → List (List Bool)
  | .lock q => q :: held
  | .unlock q => held.erase q

/-- Run a whole event list over a held-set. -/
def applyAll (held : List (List Bool)) (evs : List Ev) : List (List Bool) :=
  evs.foldl applyEv held

/-- The largest number of locks simultaneously held at any point while running
`evs` from the held-set `held` (including the starting point). -/
def runMax (held : List (List Bool)) : List Ev → Nat
  | [] => held.length
  | e :: es => max held.length (runMax (applyEv held e) es)

/-- Hand-over-hand discipline: every `lock` event on a non-root node happens
while that node's parent is locked by this same thread (so the edge being
crossed always has its upper endpoint locked). -/
def coupledOk (held : List (List Bool)) : List Ev → Bool
  | [] => true
  | .lock q :: es =>
    (decide (q = []) || decide (q.dropLast ∈ held)) && coupledOk (q :: held) es
  | .unlock q :: es => coupledOk (held.erase q) es

/-- Instrumented `search`: called with the node `t` (at path `p`) locked;
`wp` is `parentpp != NULL`.  Returns the events performed, the found node's
path and subtree (if any), and the final parent path. -/
def searchI (name : List Char) :
    Tree → List Bool → Bool → List Ev × Option (List Bool × Tree) × List Bool
  | .leaf, p, _ => ([], none, p)
  | .node pk _ l r, p, wp =>
    if strcmp name pk = Ordering.lt then
      match l with
      | .leaf => ((if wp then [] else [.unlock p]), none, p)
      | .node nk nv nl nr =>
        if strcmp name nk = Ordering.eq then
          (Ev.lock (p ++ [false]) :: (if wp then [] else [.unlock p]),
            some (p ++ [false], .node nk nv nl nr), p)
        else
          let s := searchI name (.node nk nv nl nr) (p ++ [false]) wp
          (Ev.lock (p ++ [false]) :: Ev.unlock p :: s.1, s.2.1, s.2.2)
    else
      match r with
      | .leaf => ((if wp then [] else [.unlock p]), none, p)
      | .node nk nv nl nr =>
        if strcmp name nk = Ordering.eq then
          (Ev.lock (p ++ [true]) :: (if wp then [] else [.unlock p]),
            some (p ++ [true], .node nk nv nl nr), p)
        else
          let s := searchI name (.node nk nv nl nr) (p ++ [true]) wp
          (Ev.lock (p ++ [true]) :: Ev.unlock p :: s.1, s.2.1, s.2.2)

/-- Lock events of `db_query`: lock `head`, search with `parentpp = 0`, and
unlock the target after reading its value, if one was found. -/
def queryTrace (name : List Char) (t : Tree) : List Ev :=
  match t with
  | .leaf => []
  | .node pk pv l r =>
    let s := searchI name (.node pk pv l r) [] false
    Ev.lock [] :: s.1 ++
      (match s.2.1 with
       | some (q, _) => [Ev.unlock q]
       | none => [])

/-- Lock events of `db_add`: lock `head`, search with `parentpp != 0`; if the
key was found unlock target then parent; otherwise link the new node and
unlock the parent. -/
def addTrace (name : List Char) (t : Tree) : List Ev :=
  match t with
  | .leaf => []
  | .node pk pv l r =>
    let s := searchI name (.node pk pv l r) [] true
    Ev.lock [] :: s.1 ++
      (match s.2.1 with
       | some (q, _) => [Ev.unlock q, Ev.unlock s.2.2]
       | none => [Ev.unlock s.2.2])

/-- The left-spine loop of `db_remove`'s two-children case: `t` is the node
currently locked at path `p`; while it has a left child, lock the child, then
unlock the current node.  Returns the events and the path of the leftmost
node, which stays locked. -/
def spineTrace : Tree → List Bool → List Ev × List Bool
  | .node _ _ (.node nk nv nl nr) _, p =>
    let s := spineTrace (.node nk nv nl nr) (p ++ [false])
    (Ev.lock (p ++ [false]) :: Ev.unlock p :: s.1, s.2)
  | _, p => ([], p)

/-- Lock events of `db_remove`. Not found: unlock the parent.  Target with a
null child: unlock target, then parent.  Two children: unlock the parent
first, lock the right child, run the spine loop (during which the target's
lock is still held), and finally unlock the target and the successor. -/
def removeTrace (name : List Char) (t : Tree) : List Ev :=
  match t with
  | .leaf => []
  | .node pk pv l r =>
    let s := searchI name (.node pk pv l r) [] true
    Ev.lock [] :: s.1 ++
      (match s.2.1 with
       | none => [Ev.unlock s.2.2]
       | some (q, .leaf) => [Ev.unlock q, Ev.unlock s.2.2]
       | some (q, .node _ _ dl dr) =>
         match dr with
         | .leaf => [Ev.unlock q, Ev.unlock s.2.2]
         | .node rk rv rl rr =>
           match dl with
           | .leaf => [Ev.unlock q, Ev.unlock s.2.2]
           | _ =>
             let sp := spineTrace (.node rk rv rl rr) (q ++ [true])
             Ev.unlock s.2.2 :: Ev.lock (q ++ [true]) :: sp.1 ++
               [Ev.unlock q, Ev.unlock sp.2])

/-! ## Properties of `strcmp` -/

theorem strcmp_self : ∀ a : List Char, strcmp a a = Ordering.eq
  | [] => rfl
  | _ :: cs => by simp [strcmp, strcmp_self cs]

theorem strcmp_eq_iff : ∀ a b : List Char, strcmp a b = Ordering.eq ↔ a = b
  | [], [] => by simp [strcmp]
  | [], _ :: _ => by simp [strcmp]
  | _ :: _, [] => by simp [strcmp]
  | a :: as, b :: bs => by
    rcases lt_trichotomy a b with h | h | h
    · simp [strcmp, h, ne_of_lt h]
    · subst h
      simp [strcmp, lt_irrefl, strcmp_eq_iff as bs]
    · simp [strcmp, lt_asymm h, h, (ne_of_lt h).symm]

theorem strcmp_gt_iff : ∀ a b : List Char, strcmp a b = Ordering.gt ↔ strcmp b a = Ordering.lt
  | [], [] => by simp [strcmp]
  | [], _ :: _ => by simp [strcmp]
  | _ :: _, [] => by simp [strcmp]
  | a :: as, b :: bs => by
    rcases lt_trichotomy a b with h | h | h
    · simp [strcmp, h, lt_asymm h]
    · subst h
      simp [strcmp, lt_irrefl, strcmp_gt_iff as bs]
    · simp [strcmp, h, lt_asymm h]

theorem strcmp_lt_trans : ∀ a b c : List Char, strcmp a b = Ordering.lt →
    strcmp b c = Ordering.lt → strcmp a c = Ordering.lt := by
  intro a
  induction a with
  | nil =>
    intro b c h1 h2
    cases c with
    | nil =>
      cases b with
      | nil => simp [strcmp] at h1
      | cons y ys => simp [strcmp] at h2
    | cons z zs => simp [strcmp]
  | cons x xs ih =>
    intro b c h1 h2
    cases b with
    | nil => simp [strcmp] at h1
    | cons y ys =>
      cases c with
      | nil => simp [strcmp] at h2
      | cons z zs =>
        simp only [strcmp] at h1 h2 ⊢
        by_cases hxy : x < y
        · by_cases hyz : y < z
          · simp [lt_trans hxy hyz]
          · by_cases hzy : z < y
            · simp [hyz, hzy] at h2
            · have : y = z := le_antisymm (not_lt.mp hzy) (not_lt.mp hyz)
              subst this
              simp [hxy]
        · by_cases hyx : y < x
          · simp [hxy, hyx] at h1
          · have : x = y := le_antisymm (not_lt.mp hyx) (not_lt.mp hxy)
            subst this
            simp only [lt_irrefl, if_false] at h1
            by_cases hyz : x < z
            · simp [hyz]
            · by_cases hzy : z < x
              · simp [hyz, hzy] at h2
              · have : x = z := le_antisymm (not_lt.mp hzy) (not_lt.mp hyz)
                subst this
                simp only [lt_irrefl, if_false] at h2 ⊢
                exact ih _ _ h1 h2

/-- A list of length at most 255 passes through the `snprintf` copy intact. -/
theorem snprintf_copy_short {s : List Char} (h : s.length ≤ 255) :
    snprintf_copy s = s :=
  List.take_of_length_le h

theorem snprintf_copy_length (s : List Char) : (snprintf_copy s).length ≤ 255 := by
  simp [snprintf_copy]

/-! ## Facts about `allB` and `bst` -/

theorem allB_node {p : List Char → Bool} {k v : List Char} {l r : Tree} :
    allB p (.node k v l r) = true ↔ p k = true ∧ allB p l = true ∧ allB p r = true := by
  simp [allB, Bool.and_assoc]

theorem bst_node {k v : List Char} {l r : Tree} :
    bst (.node k v l r) = true ↔
      allB (fun x => strcmp x k = Ordering.lt) l = true ∧
      allB (fun x => strcmp x k = Ordering.gt) r = true ∧
      bst l = true ∧ bst r = true := by
  simp [bst, Bool.and_assoc]

theorem allB_imp {p q : List Char → Bool} (h : ∀ x, p x = true → q x = true) :
    ∀ t : Tree, allB p t = true → allB q t = true
  | .leaf, _ => rfl
  | .node k v l r, hall => by
    rcases allB_node.mp hall with ⟨h1, h2, h3⟩
    exact allB_node.mpr ⟨h k h1, allB_imp h l h2, allB_imp h r h3⟩

theorem allB_mem_preorder {p : List Char → Bool} {k v : List Char} :
    ∀ t : Tree, allB p t = true → (k, v) ∈ preorderKV t → p k = true
  | .leaf, _, hm => by simp [preorderKV] at hm
  | .node nk nv l r, hall, hm => by
    rcases allB_node.mp hall with ⟨h1, h2, h3⟩
    simp only [preorderKV, List.mem_cons, List.mem_append] at hm
    rcases hm with h | h | h
    · obtain ⟨rfl, rfl⟩ := Prod.mk.injEq .. ▸ h
      exact h1
    · exact allB_mem_preorder l h2 h
    · exact allB_mem_preorder r h3 h

theorem allB_mem_inorder {p : List Char → Bool} {k : List Char} :
    ∀ t : Tree, allB p t = true → k ∈ inorderKeys t → p k = true
  | .leaf, _, hm => by simp [inorderKeys] at hm
  | .node nk nv l r, hall, hm => by
    rcases allB_node.mp hall with ⟨h1, h2, h3⟩
    simp only [inorderKeys, List.mem_append, List.mem_cons] at hm
    rcases hm with h | h | h
    · exact allB_mem_inorder l h2 h
    · exact h ▸ h1
    · exact allB_mem_inorder r h3 h

/-! ## `db_add` preserves the invariants -/

theorem bst_newNode (name value : List Char) (a : Bool) :
    bst (newNode name value a) = true := by
  unfold newNode node_constructor
  by_cases h1 : name.length > MAXLEN ∨ value.length > MAXLEN
  · simp only [h1, if_true]
    rfl
  · by_cases h2 : a = false
    · simp only [h1, h2, if_false, if_true]
      rfl
    · simp [h1, h2, bst, allB]

theorem allB_newNode {p : List Char → Bool} (name value : List Char) (a : Bool)
    (hp : p (snprintf_copy name) = true) : allB p (newNode name value a) = true := by
  unfold newNode node_constructor
  by_cases h1 : name.length > MAXLEN ∨ value.length > MAXLEN
  · simp only [h1, if_true]
    rfl
  · by_cases h2 : a = false
    · simp only [h1, h2, if_false, if_true]
      rfl
    · simp [h1, h2, allB, hp]

theorem db_add_root (name value : List Char) (a : Bool) (pk pv : List Char) (l r : Tree) :
    ∃ l2 r2, (db_add name value a (.node pk pv l r)).2 = .node pk pv l2 r2 := by
  rw [db_add.eq_def]
  dsimp only
  split
  · cases l with
    | leaf => exact ⟨_, _, rfl⟩
    | node nk nv nl nr =>
      dsimp only
      split
      · exact ⟨_, _, rfl⟩
      · exact ⟨_, _, rfl⟩
  · cases r with
    | leaf => exact ⟨_, _, rfl⟩
    | node nk nv nl nr =>
      dsimp only
      split
      · exact ⟨_, _, rfl⟩
      · exact ⟨_, _, rfl⟩

theorem db_add_allB {p : List Char → Bool} (name value : List Char) (a : Bool)
    (hp : p (snprintf_copy name) = true) :
    ∀ t : Tree, allB p t = true → allB p (db_add name value a t).2 = true
  | .leaf, _ => rfl
  | .node pk pv l r, hall => by
    rcases allB_node.mp hall with ⟨h1, h2, h3⟩
    rw [db_add.eq_def]
    dsimp only
    split
    · cases l with
      | leaf => exact allB_node.mpr ⟨h1, allB_newNode name value a hp, h3⟩
      | node nk nv nl nr =>
        dsimp only
        split
        · exact hall
        · exact allB_node.mpr ⟨h1, db_add_allB name value a hp _ h2, h3⟩
    · cases r with
      | leaf => exact allB_node.mpr ⟨h1, h2, allB_newNode name value a hp⟩
      | node nk nv nl nr =>
        dsimp only
        split
        · exact hall
        · exact allB_node.mpr ⟨h1, h2, db_add_allB name value a hp _ h3⟩

theorem db_add_bst (name value : List Char) (a : Bool) (hlen : name.length ≤ 255) :
    ∀ t : Tree, bst t = true →
      (∀ pk2 pv2 l2 r2, t = .node pk2 pv2 l2 r2 → strcmp name pk2 ≠ Ordering.eq) →
      bst (db_add name value a t).2 = true
  | .leaf, _, _ => rfl
  | .node pk pv l r, hb, hne => by
    rcases bst_node.mp hb with ⟨h1, h2, h3, h4⟩
    have hne0 : strcmp name pk ≠ Ordering.eq := hne pk pv l r rfl
    rw [db_add.eq_def]
    dsimp only
    split
    next hlt =>
      cases l with
      | leaf =>
        refine bst_node.mpr ⟨?_, h2, ?_, h4⟩
        · exact allB_newNode _ _ _ (by simp [snprintf_copy_short hlen, hlt])
        · exact bst_newNode _ _ _
      | node nk nv nl nr =>
        dsimp only
        split
        next heq => exact hb
        next hneq =>
          refine bst_node.mpr ⟨?_, h2, ?_, h4⟩
          · exact db_add_allB _ _ _ (by simp [snprintf_copy_short hlen, hlt]) _ h1
          · exact db_add_bst name value a hlen _ h3 (by
              intro pk2 pv2 l2 r2 heq2
              injection heq2 with e1 e2 e3 e4
              exact e1 ▸ hneq)
    next hnlt =>
      have hgt : strcmp name pk = Ordering.gt := by
        cases hcs : strcmp name pk
        · exact absurd hcs hnlt
        · exact absurd hcs hne0
        · rfl
      cases r with
      | leaf =>
        refine bst_node.mpr ⟨h1, ?_, h3, ?_⟩
        · exact allB_newNode _ _ _ (by simp [snprintf_copy_short hlen, hgt])
        · exact bst_newNode _ _ _
      | node nk nv nl nr =>
        dsimp only
        split
        next heq => exact hb
        next hneq =>
          refine bst_node.mpr ⟨h1, ?_, h3, ?_⟩
          · exact db_add_allB _ _ _ (by simp [snprintf_copy_short hlen, hgt]) _ h2
          · exact db_add_bst name value a hlen _ h4 (by
              intro pk2 pv2 l2 r2 heq2
              injection heq2 with e1 e2 e3 e4
              exact e1 ▸ hneq)

/-! ## `db_remove` preserves the invariants -/

theorem spliceMin_allB {p : List Char → Bool} :
    ∀ (k v : List Char) (l r : Tree), allB p (.node k v l r) = true →
      p (spliceMin (.node k v l r)).1.1 = true ∧
        allB p (spliceMin (.node k v l r)).2 = true
  | k, v, .leaf, r, hall => by
    rcases allB_node.mp hall with ⟨h1, _, h3⟩
    rw [spliceMin.eq_def]
    dsimp only
    exact ⟨h1, h3⟩
  | k, v, .node nk nv nl nr, r, hall => by
    rcases allB_node.mp hall with ⟨h1, h2, h3⟩
    have ih := spliceMin_allB nk nv nl nr h2
    rw [spliceMin.eq_def]
    dsimp only
    exact ⟨ih.1, allB_node.mpr ⟨h1, ih.2, h3⟩⟩

theorem spliceMin_bst : ∀ (k v : List Char) (l r : Tree),
    bst (.node k v l r) = true → bst (spliceMin (.node k v l r)).2 = true
  | k, v, .leaf, r, hb => by
    rw [spliceMin.eq_def]
    dsimp only
    exact (bst_node.mp hb).2.2.2
  | k, v, .node nk nv nl nr, r, hb => by
    rcases bst_node.mp hb with ⟨h1, h2, h3, h4⟩
    rw [spliceMin.eq_def]
    dsimp only
    exact bst_node.mpr
      ⟨(spliceMin_allB nk nv nl nr h1).2, h2, spliceMin_bst nk nv nl nr h3, h4⟩

theorem spliceMin_min : ∀ (k v : List Char) (l r : Tree),
    bst (.node k v l r) = true →
    allB (fun x => strcmp (spliceMin (.node k v l r)).1.1 x = Ordering.lt)
      (spliceMin (.node k v l r)).2 = true
  | k, v, .leaf, r, hb => by
    rw [spliceMin.eq_def]
    dsimp only
    refine allB_imp (fun x hx => ?_) r (bst_node.mp hb).2.1
    simp only [decide_eq_true_eq] at hx ⊢
    exact (strcmp_gt_iff x k).mp hx
  | k, v, .node nk nv nl nr, r, hb => by
    rcases bst_node.mp hb with ⟨h1, h2, h3, h4⟩
    have ihm := spliceMin_min nk nv nl nr h3
    have hmem := (spliceMin_allB nk nv nl nr h1).1
    rw [spliceMin.eq_def]
    dsimp only
    refine allB_node.mpr ⟨hmem, ihm, ?_⟩
    refine allB_imp (fun x hx => ?_) r h2
    simp only [decide_eq_true_eq] at hx hmem ⊢
    exact strcmp_lt_trans _ _ _ hmem ((strcmp_gt_iff x k).mp hx)

theorem removeNode_allB {p : List Char → Bool} (dk dv : List Char) (dl dr : Tree)
    (hall : allB p (.node dk dv dl dr) = true)
    (hshort : shortKeys (.node dk dv dl dr) = true) :
    allB p (removeNode dk dv dl dr) = true := by
  rcases allB_node.mp hall with ⟨h1, h2, h3⟩
  rcases allB_node.mp hshort with ⟨hs1, hs2, hs3⟩
  rw [removeNode.eq_def]
  cases dr with
  | leaf => exact h2
  | node rk rv rl rr =>
    dsimp only
    cases dl with
    | leaf => exact h3
    | node lk lv ll lr =>
      dsimp only
      have hm := (spliceMin_allB rk rv rl rr h3).1
      have hms := (spliceMin_allB rk rv rl rr hs3).1
      have hmlen : (spliceMin (.node rk rv rl rr)).1.1.length ≤ 255 := by
        simpa using hms
      refine allB_node.mpr ⟨?_, h2, (spliceMin_allB rk rv rl rr h3).2⟩
      rw [snprintf_copy_short hmlen]
      exact hm

theorem removeNode_bst (dk dv : List Char) (dl dr : Tree)
    (hb : bst (.node dk dv dl dr) = true)
    (hshort : shortKeys (.node dk dv dl dr) = true) :
    bst (removeNode dk dv dl dr) = true := by
  rcases bst_node.mp hb with ⟨h1, h2, h3, h4⟩
  rcases allB_node.mp hshort with ⟨hs1, hs2, hs3⟩
  rw [removeNode.eq_def]
  cases dr with
  | leaf => exact h3
  | node rk rv rl rr =>
    dsimp only
    cases dl with
    | leaf => exact h4
    | node lk lv ll lr =>
      dsimp only
      have hm := (spliceMin_allB rk rv rl rr h2).1
      have hms := (spliceMin_allB rk rv rl rr hs3).1
      have hmlen : (spliceMin (.node rk rv rl rr)).1.1.length ≤ 255 := by
        simpa using hms
      rw [snprintf_copy_short hmlen]
      refine bst_node.mpr ⟨?_, ?_, h3, spliceMin_bst rk rv rl rr h4⟩
      · refine allB_imp (fun x hx => ?_) _ h1
        simp only [decide_eq_true_eq] at hx hm ⊢
        exact strcmp_lt_trans _ _ _ hx ((strcmp_gt_iff _ _).mp hm)
      · refine allB_imp (fun x hx => ?_) _ (spliceMin_min rk rv rl rr h4)
        simp only [decide_eq_true_eq] at hx ⊢
        exact (strcmp_gt_iff _ _).mpr hx

theorem db_remove_root (name : List Char) (pk pv : List Char) (l r : Tree) :
    ∃ l2 r2, (db_remove name (.node pk pv l r)).2 = .node pk pv l2 r2 := by
  rw [db_remove.eq_def]
  dsimp only
  split
  · cases l with
    | leaf => exact ⟨_, _, rfl⟩
    | node dk dv dl dr =>
      dsimp only
      split
      · exact ⟨_, _, rfl⟩
      · exact ⟨_, _, rfl⟩
  · cases r with
    | leaf => exact ⟨_, _, rfl⟩
    | node dk dv dl dr =>
      dsimp only
      split
      · exact ⟨_, _, rfl⟩
      · exact ⟨_, _, rfl⟩

theorem db_remove_allB {p : List Char → Bool} (name : List Char) :
    ∀ t : Tree, allB p t = true → shortKeys t = true →
      allB p (db_remove name t).2 = true
  | .leaf, _, _ => rfl
  | .node pk pv l r, hall, hs => by
    rcases allB_node.mp hall with ⟨h1, h2, h3⟩
    rcases allB_node.mp hs with ⟨hs1, hs2, hs3⟩
    rw [db_remove.eq_def]
    dsimp only
    split
    · cases l with
      | leaf => exact hall
      | node dk dv dl dr =>
        dsimp only
        split
        · exact allB_node.mpr ⟨h1, removeNode_allB dk dv dl dr h2 hs2, h3⟩
        · exact allB_node.mpr ⟨h1, db_remove_allB name _ h2 hs2, h3⟩
    · cases r with
      | leaf => exact hall
      | node dk dv dl dr =>
        dsimp only
        split
        · exact allB_node.mpr ⟨h1, h2, removeNode_allB dk dv dl dr h3 hs3⟩
        · exact allB_node.mpr ⟨h1, h2, db_remove_allB name _ h3 hs3⟩

theorem db_remove_bst (name : List Char) :
    ∀ t : Tree, bst t = true → shortKeys t = true →
      bst (db_remove name t).2 = true
  | .leaf, _, _ => rfl
  | .node pk pv l r, hb, hs => by
    rcases bst_node.mp hb with ⟨h1, h2, h3, h4⟩
    rcases allB_node.mp hs with ⟨hs1, hs2, hs3⟩
    rw [db_remove.eq_def]
    dsimp only
    split
    · cases l with
      | leaf => exact hb
      | node dk dv dl dr =>
        dsimp only
        split
        · exact bst_node.mpr
            ⟨removeNode_allB dk dv dl dr h1 hs2, h2, removeNode_bst dk dv dl dr h3 hs2, h4⟩
        · exact bst_node.mpr ⟨db_remove_allB name _ h1 hs2, h2, db_remove_bst name _ h3 hs2, h4⟩
    · cases r with
      | leaf => exact hb
      | node dk dv dl dr =>
        dsimp only
        split
        · exact bst_node.mpr
            ⟨h1, removeNode_allB dk dv dl dr h2 hs3, h3, removeNode_bst dk dv dl dr h4 hs3⟩
        · exact bst_node.mpr ⟨h1, db_remove_allB name _ h2 hs3, h3, db_remove_bst name _ h4 hs3⟩

/-- `shortKeys` is preserved by `db_add` (the constructor truncates at 255). -/
theorem db_add_short (name value : List Char) (a : Bool) (t : Tree)
    (hs : shortKeys t = true) : shortKeys (db_add name value a t).2 = true :=
  db_add_allB name value a (by simp [snprintf_copy_length]) t hs

/-- `shortKeys` is preserved by `db_remove` (the successor copy truncates at 255). -/
theorem db_remove_short (name : List Char) (t : Tree)
    (hs : shortKeys t = true) : shortKeys (db_remove name t).2 = true :=
  db_remove_allB name t hs hs

/-! ## `search` versus `db_add` -/

/-- When the search finds the key, `db_add` returns 0 and leaves the tree
unchanged. -/
theorem searchVal_found_add (name value : List Char) (a : Bool) {v1 : List Char} :
    ∀ t : Tree, searchVal name t = some v1 → db_add name value a t = (false, t)
  | .leaf, h => by simp [searchVal] at h
  | .node pk pv l r, h => by
    rw [searchVal.eq_def] at h
    rw [db_add.eq_def]
    dsimp only at h ⊢
    split at h
    next hlt =>
      rw [if_pos hlt]
      cases l with
      | leaf => simp at h
      | node nk nv nl nr =>
        dsimp only at h ⊢
        split at h
        next heq => rw [if_pos heq]
        next hne =>
          rw [if_neg hne]
          have ih := searchVal_found_add name value a _ h
          simp only [ih]
    next hlt =>
      rw [if_neg hlt]
      cases r with
      | leaf => simp at h
      | node nk nv nl nr =>
        dsimp only at h ⊢
        split at h
        next heq => rw [if_pos heq]
        next hne =>
          rw [if_neg hne]
          have ih := searchVal_found_add name value a _ h
          simp only [ih]

/-- Search completeness: in a tree satisfying the ordering invariant, any
key/value pair stored strictly below the root is found by `search` (the root
node itself is never tested for equality, so the sentinel is excluded by
construction). -/
theorem searchVal_complete {k v1 : List Char} :
    ∀ t : Tree, bst t = true →
      ∀ pk pv l r, .node pk pv l r = t →
        (k, v1) ∈ preorderKV l ++ preorderKV r → searchVal k t = some v1
  | .leaf, _, _, _, _, _, ht, _ => by cases ht
  | .node pk0 pv0 l0 r0, hb, pk, pv, l, r, ht, hm => by
    injection ht with e1 e2 e3 e4
    subst e1
    subst e2
    subst e3
    subst e4
    rcases bst_node.mp hb with ⟨h1, h2, h3, h4⟩
    rw [searchVal.eq_def]
    dsimp only
    rcases List.mem_append.mp hm with hml | hmr
    · have hklt : strcmp k pk = Ordering.lt := by
        have := allB_mem_preorder l h1 hml
        simpa using this
      rw [if_pos hklt]
      cases l with
      | leaf => simp [preorderKV] at hml
      | node nk nv nl nr =>
        dsimp only
        by_cases heq : strcmp k nk = Ordering.eq
        · rw [if_pos heq]
          have hkeq : k = nk := (strcmp_eq_iff k nk).mp heq
          subst hkeq
          rcases bst_node.mp h3 with ⟨g1, g2, _, _⟩
          simp only [preorderKV, List.mem_cons, List.mem_append] at hml
          rcases hml with h | h | h
          · obtain ⟨-, rfl⟩ := Prod.mk.injEq .. ▸ h
            rfl
          · have := allB_mem_preorder nl g1 h
            simp [strcmp_self] at this
          · have := allB_mem_preorder nr g2 h
            simp [strcmp_self] at this
        · rw [if_neg heq]
          have hm2 : (k, v1) ∈ preorderKV nl ++ preorderKV nr := by
            simp only [preorderKV, List.mem_cons, List.mem_append] at hml
            rcases hml with h | h | h
            · exfalso
              obtain ⟨rfl, -⟩ := Prod.mk.injEq .. ▸ h
              exact heq (strcmp_self k)
            · exact List.mem_append.mpr (Or.inl h)
            · exact List.mem_append.mpr (Or.inr h)
          exact searchVal_complete _ h3 nk nv nl nr rfl hm2
    · have hkgt : strcmp k pk = Ordering.gt := by
        have := allB_mem_preorder r h2 hmr
        simpa using this
      rw [if_neg (by simp [hkgt])]
      cases r with
      | leaf => simp [preorderKV] at hmr
      | node nk nv nl nr =>
        dsimp only
        by_cases heq : strcmp k nk = Ordering.eq
        · rw [if_pos heq]
          have hkeq : k = nk := (strcmp_eq_iff k nk).mp heq
          subst hkeq
          rcases bst_node.mp h4 with ⟨g1, g2, _, _⟩
          simp only [preorderKV, List.mem_cons, List.mem_append] at hmr
          rcases hmr with h | h | h
          · obtain ⟨-, rfl⟩ := Prod.mk.injEq .. ▸ h
            rfl
          · have := allB_mem_preorder nl g1 h
            simp [strcmp_self] at this
          · have := allB_mem_preorder nr g2 h
            simp [strcmp_self] at this
        · rw [if_neg heq]
          have hm2 : (k, v1) ∈ preorderKV nl ++ preorderKV nr := by
            simp only [preorderKV, List.mem_cons, List.mem_append] at hmr
            rcases hmr with h | h | h
            · exfalso
              obtain ⟨rfl, -⟩ := Prod.mk.injEq .. ▸ h
              exact heq (strcmp_self k)
            · exact List.mem_append.mpr (Or.inl h)
            · exact List.mem_append.mpr (Or.inr h)
          exact searchVal_complete _ h4 nk nv nl nr rfl hm2

/-- When the search fails, `db_add` (with a successful allocation and strings
within the stored bound) links a node that an immediately following search
finds. -/
theorem db_add_then_search (name value : List Char)
    (hn : name.length ≤ 255) (hv : value.length ≤ 255) :
    ∀ t pk pv l r, Tree.node pk pv l r = t → searchVal name t = none →
      (db_add name value true t).1 = true ∧
        searchVal name (db_add name value true t).2 = some value
  | .leaf, _, _, _, _, ht, _ => by cases ht
  | .node pk0 pv0 l0 r0, pk, pv, l, r, ht, hnone => by
    injection ht with e1 e2 e3 e4
    subst e1
    subst e2
    subst e3
    subst e4
    have hnew : newNode name value true =
        Tree.node name value .leaf .leaf := by
      unfold newNode node_constructor
      rw [if_neg (by simp only [MAXLEN]; omega), if_neg (by simp)]
      rw [snprintf_copy_short hn, snprintf_copy_short hv]
    rw [searchVal.eq_def] at hnone
    rw [db_add.eq_def]
    dsimp only at hnone ⊢
    split at hnone
    next hlt =>
      rw [if_pos hlt]
      cases l with
      | leaf =>
        refine ⟨rfl, ?_⟩
        rw [searchVal.eq_def]
        dsimp only
        rw [if_pos hlt, hnew]
        dsimp only
        rw [if_pos (strcmp_self name)]
      | node nk nv nl nr =>
        dsimp only at hnone ⊢
        split at hnone
        next heq => cases hnone
        next hne =>
          rw [if_neg hne]
          have ih := db_add_then_search name value hn hv _ nk nv nl nr rfl hnone
          obtain ⟨l2, r2, hroot⟩ := db_add_root name value true nk nv nl nr
          refine ⟨ih.1, ?_⟩
          rw [searchVal.eq_def]
          dsimp only
          rw [if_pos hlt, hroot]
          dsimp only
          rw [if_neg hne, ← hroot]
          exact ih.2
    next hlt =>
      rw [if_neg hlt]
      cases r with
      | leaf =>
        refine ⟨rfl, ?_⟩
        rw [searchVal.eq_def]
        dsimp only
        rw [if_neg hlt, hnew]
        dsimp only
        rw [if_pos (strcmp_self name)]
      | node nk nv nl nr =>
        dsimp only at hnone ⊢
        split at hnone
        next heq => cases hnone
        next hne =>
          rw [if_neg hne]
          have ih := db_add_then_search name value hn hv _ nk nv nl nr rfl hnone
          obtain ⟨l2, r2, hroot⟩ := db_add_root name value true nk nv nl nr
          refine ⟨ih.1, ?_⟩
          rw [searchVal.eq_def]
          dsimp only
          rw [if_neg hlt, hroot]
          dsimp only
          rw [if_neg hne, ← hroot]
          exact ih.2

/-! ## Dump, cleanup, and the ordering of the key sequence -/

theorem dumpKVs_append (a b : List (Nat × Entry)) :
    dumpKVs (a ++ b) = dumpKVs a ++ dumpKVs b := by
  simp [dumpKVs, List.filterMap_append]

/-- Below the sentinel, the key/value pairs printed by `db_print_recurs` are
exactly the pre-order traversal of the subtree. -/
theorem dumpKVs_recurs : ∀ (t : Tree) (lvl : Nat),
    dumpKVs (db_print_recurs t false lvl) = preorderKV t
  | .leaf, lvl => rfl
  | .node k v l r, lvl => by
    simp only [db_print_recurs, preorderKV]
    rw [show ((if false then Entry.root else Entry.kv k v) : Entry) = Entry.kv k v from rfl]
    rw [show ((lvl, Entry.kv k v) :: (db_print_recurs l false (lvl + 1) ++
        db_print_recurs r false (lvl + 1))) = [(lvl, Entry.kv k v)] ++
        (db_print_recurs l false (lvl + 1) ++ db_print_recurs r false (lvl + 1)) from rfl]
    rw [dumpKVs_append, dumpKVs_append]
    rw [dumpKVs_recurs l (lvl + 1), dumpKVs_recurs r (lvl + 1)]
    rfl

/-- In a tree satisfying the ordering invariant, the in-order key sequence is
strictly increasing. -/
theorem bst_pairwise : ∀ t : Tree, bst t = true →
    List.Pairwise (fun a b => strcmp a b = Ordering.lt) (inorderKeys t)
  | .leaf, _ => List.Pairwise.nil
  | .node k v l r, hb => by
    rcases bst_node.mp hb with ⟨h1, h2, h3, h4⟩
    have ihl := bst_pairwise l h3
    have ihr := bst_pairwise r h4
    simp only [inorderKeys]
    rw [List.pairwise_append]
    refine ⟨ihl, ?_, ?_⟩
    · rw [List.pairwise_cons]
      refine ⟨fun y hy => ?_, ihr⟩
      have hk := allB_mem_inorder r h2 hy
      simp only [decide_eq_true_eq] at hk
      exact (strcmp_gt_iff y k).mp hk
    · intro x hx y hy
      have hxk : strcmp x k = Ordering.lt := by
        simpa using allB_mem_inorder l h1 hx
      rcases List.mem_cons.mp hy with rfl | hy2
      · exact hxk
      · have hky : strcmp k y = Ordering.lt := by
          have := allB_mem_inorder r h2 hy2
          simp only [decide_eq_true_eq] at this
          exact (strcmp_gt_iff y k).mp this
        exact strcmp_lt_trans _ _ _ hxk hky

/-- No key compares less than the sentinel's empty key, so in an invariant
state the sentinel's left child is null. -/
theorem allB_lt_nil_leaf : ∀ l : Tree,
    allB (fun x => strcmp x [] = Ordering.lt) l = true → l = .leaf
  | .leaf, _ => rfl
  | .node k v l r, h => by
    exfalso
    have hk : strcmp k [] = Ordering.lt := by
      simpa using (allB_node.mp h).1
    cases k with
    | nil => simp [strcmp] at hk
    | cons c cs => simp [strcmp] at hk

/-- The destruction order of `db_cleanup_recurs` is a permutation of the
subtree's pre-order contents: every node is destroyed exactly once. -/
theorem db_cleanup_recurs_perm : ∀ t : Tree,
    (db_cleanup_recurs t).Perm (preorderKV t)
  | .leaf => List.Perm.refl _
  | .node k v l r => by
    simp only [db_cleanup_recurs, preorderKV]
    have h1 : (db_cleanup_recurs l ++ db_cleanup_recurs r).Perm
        (preorderKV l ++ preorderKV r) :=
      List.Perm.append (db_cleanup_recurs_perm l) (db_cleanup_recurs_perm r)
    exact List.Perm.trans (List.Perm.append h1 (List.Perm.refl [(k, v)]))
      (List.perm_append_singleton _ _)

/-! ## Lock-trace lemmas -/

theorem runMax_ge (held : List (List Bool)) : ∀ evs : List Ev,
    held.length ≤ runMax held evs
  | [] => le_refl _
  | _ :: _ => le_max_left _ _

theorem runMax_append : ∀ (held : List (List Bool)) (a b : List Ev),
    runMax held (a ++ b) = max (runMax held a) (runMax (applyAll held a) b)
  | held, [], b => by
    simp only [List.nil_append, runMax, applyAll, List.foldl_nil]
    exact (Nat.max_eq_right (runMax_ge held b)).symm
  | held, e :: es, b => by
    simp only [List.cons_append, runMax, applyAll, List.foldl_cons, List.append_eq]
    rw [show List.foldl applyEv (applyEv held e) es = applyAll (applyEv held e) es from rfl]
    rw [runMax_append (applyEv held e) es b]
    exact (Nat.max_assoc _ _ _).symm

theorem applyAll_append (held : List (List Bool)) (a b : List Ev) :
    applyAll held (a ++ b) = applyAll (applyAll held a) b := by
  simp [applyAll, List.foldl_append]

theorem coupledOk_append : ∀ (held : List (List Bool)) (a b : List Ev),
    coupledOk held (a ++ b) = (coupledOk held a && coupledOk (applyAll held a) b)
  | held, [], b => by simp [coupledOk, applyAll]
  | held, e :: es, b => by
    cases e with
    | lock q =>
      simp only [List.cons_append, coupledOk, List.append_eq]
      rw [coupledOk_append (q :: held) es b, Bool.and_assoc]
      rfl
    | unlock q =>
      simp only [List.cons_append, coupledOk, List.append_eq]
      rw [coupledOk_append (held.erase q) es b]
      rfl

theorem append_singleton_ne (p : List Bool) (b : Bool) : p ++ [b] ≠ p := by
  intro h
  have := congrArg List.length h
  simp at this

theorem ne_of_length_lt {x p : List Bool} (h : x.length < p.length) : p ≠ x := by
  intro h2
  rw [h2] at h
  exact lt_irrefl _ h

theorem erase_two {c p : List Bool} (h : c ≠ p) : List.erase [c, p] p = [c] := by
  rw [List.erase_cons]
  simp [h]

/-- Lock behaviour of `search`: starting with only the parent `p` locked, the
descent never holds more than two locks, every child lock is taken while the
parent is held, and at the end exactly the found node (and, when `parentpp`
is non-null, its parent) remain locked.  The found node is always a child of
the final parent. -/
theorem searchI_spec (name : List Char) :
    ∀ t : Tree, ∀ pk pv l r, Tree.node pk pv l r = t → ∀ (p : List Bool) (wp : Bool),
      runMax [p] (searchI name t p wp).1 ≤ 2 ∧
      coupledOk [p] (searchI name t p wp).1 = true ∧
      ((searchI name t p wp).2.1 = none →
        applyAll [p] (searchI name t p wp).1 =
          if wp then [(searchI name t p wp).2.2] else []) ∧
      (∀ q sub, (searchI name t p wp).2.1 = some (q, sub) →
        (applyAll [p] (searchI name t p wp).1 =
          if wp then [q, (searchI name t p wp).2.2] else [q]) ∧
        ∃ d, q = (searchI name t p wp).2.2 ++ [d])
  | .leaf, pk, pv, l, r, ht, p, wp => by cases ht
  | .node pk0 pv0 l0 r0, pk, pv, l, r, ht, p, wp => by
    injection ht with e1 e2 e3 e4
    subst e1
    subst e2
    subst e3
    subst e4
    rw [searchI.eq_def]
    dsimp only
    split
    next hlt =>
      cases l with
      | leaf =>
        refine ⟨?_, ?_, ?_, ?_⟩
        · cases wp <;> simp [runMax, applyEv, List.erase_cons_head]
        · cases wp <;> simp [coupledOk, applyEv, List.erase_cons_head]
        · intro _
          cases wp <;> simp [applyAll, applyEv, List.erase_cons_head]
        · intro q sub h
          cases h
      | node nk nv nl nr =>
        dsimp only
        have hcp : (p ++ [false]) ≠ p := append_singleton_ne p false
        have he : List.erase [p ++ [false], p] p = [p ++ [false]] := erase_two hcp
        split
        next heq =>
          refine ⟨?_, ?_, ?_, ?_⟩
          · cases wp <;> simp [runMax, applyEv, he]
          · cases wp <;>
              simp [coupledOk, applyEv, he, List.dropLast_concat, List.erase_cons_head]
          · intro h
            cases h
          · intro q sub h
            injection h with h1
            injection h1 with hq hsub
            subst hq
            constructor
            · cases wp <;> simp [applyAll, applyEv, he]
            · exact ⟨false, rfl⟩
        next hne =>
          have ih := searchI_spec name (.node nk nv nl nr) nk nv nl nr rfl (p ++ [false]) wp
          refine ⟨?_, ?_, ?_, ?_⟩
          · simp only [runMax, applyEv, he]
            have h1 := ih.1
            simp only [List.length_cons, List.length_singleton, List.length_nil]
            omega
          · simp only [coupledOk, applyEv, he, List.dropLast_concat]
            simp [ih.2.1]
          · intro h
            simp only [applyAll, List.foldl_cons, applyEv, he] at *
            rw [show List.foldl applyEv [p ++ [false]]
                (searchI name (.node nk nv nl nr) (p ++ [false]) wp).1 =
              applyAll [p ++ [false]]
                (searchI name (.node nk nv nl nr) (p ++ [false]) wp).1 from rfl]
            exact ih.2.2.1 h
          · intro q sub h
            have := ih.2.2.2 q sub h
            refine ⟨?_, this.2⟩
            simp only [applyAll, List.foldl_cons, applyEv, he]
            rw [show List.foldl applyEv [p ++ [false]]
                (searchI name (.node nk nv nl nr) (p ++ [false]) wp).1 =
              applyAll [p ++ [false]]
                (searchI name (.node nk nv nl nr) (p ++ [false]) wp).1 from rfl]
            exact this.1
    next hlt =>
      cases r with
      | leaf =>
        refine ⟨?_, ?_, ?_, ?_⟩
        · cases wp <;> simp [runMax, applyEv, List.erase_cons_head]
        · cases wp <;> simp [coupledOk, applyEv, List.erase_cons_head]
        · intro _
          cases wp <;> simp [applyAll, applyEv, List.erase_cons_head]
        · intro q sub h
          cases h
      | node nk nv nl nr =>
        dsimp only
        have hcp : (p ++ [true]) ≠ p := append_singleton_ne p true
        have he : List.erase [p ++ [true], p] p = [p ++ [true]] := erase_two hcp
        split
        next heq =>
          refine ⟨?_, ?_, ?_, ?_⟩
          · cases wp <;> simp [runMax, applyEv, he]
          · cases wp <;>
              simp [coupledOk, applyEv, he, List.dropLast_concat, List.erase_cons_head]
          · intro h
            cases h
          · intro q sub h
            injection h with h1
            injection h1 with hq hsub
            subst hq
            constructor
            · cases wp <;> simp [applyAll, applyEv, he]
            · exact ⟨true, rfl⟩
        next hne =>
          have ih := searchI_spec name (.node nk nv nl nr) nk nv nl nr rfl (p ++ [true]) wp
          refine ⟨?_, ?_, ?_, ?_⟩
          · simp only [runMax, applyEv, he]
            have h1 := ih.1
            simp only [List.length_cons, List.length_singleton, List.length_nil]
            omega
          · simp only [coupledOk, applyEv, he, List.dropLast_concat]
            simp [ih.2.1]
          · intro h
            simp only [applyAll, List.foldl_cons, applyEv, he] at *
            rw [show List.foldl applyEv [p ++ [true]]
                (searchI name (.node nk nv nl nr) (p ++ [true]) wp).1 =
              applyAll [p ++ [true]]
                (searchI name (.node nk nv nl nr) (p ++ [true]) wp).1 from rfl]
            exact ih.2.2.1 h
          · intro q sub h
            have := ih.2.2.2 q sub h
            refine ⟨?_, this.2⟩
            simp only [applyAll, List.foldl_cons, applyEv, he]
            rw [show List.foldl applyEv [p ++ [true]]
                (searchI name (.node nk nv nl nr) (p ++ [true]) wp).1 =
              applyAll [p ++ [true]]
                (searchI name (.node nk nv nl nr) (p ++ [true]) wp).1 from rfl]
            exact this.1

/-- Lock behaviour of the successor-spine loop: entered with the current node
`p` and one extra lock `x` (the deleted node) held, it never holds more than
three locks, always locks a child while its parent is held, and ends with
exactly the leftmost node and `x` locked. -/
theorem spineTrace_spec : ∀ (t : Tree) (x p : List Bool), x.length < p.length →
    runMax [p, x] (spineTrace t p).1 ≤ 3 ∧
    coupledOk [p, x] (spineTrace t p).1 = true ∧
    applyAll [p, x] (spineTrace t p).1 = [(spineTrace t p).2, x] ∧
    x.length < (spineTrace t p).2.length
  | .leaf, x, p, hx => by
    refine ⟨?_, rfl, rfl, hx⟩
    simp [spineTrace, runMax]
  | .node a b .leaf c, x, p, hx => by
    refine ⟨?_, rfl, rfl, hx⟩
    simp [spineTrace, runMax]
  | .node a b (.node nk nv nl nr) c, x, p, hx => by
    have ih := spineTrace_spec (.node nk nv nl nr) x (p ++ [false])
      (by simp only [List.length_append, List.length_singleton]; omega)
    have he : List.erase [p ++ [false], p, x] p = [p ++ [false], x] := by
      rw [List.erase_cons]
      simp [append_singleton_ne p false]
    rw [spineTrace.eq_def]
    dsimp only
    refine ⟨?_, ?_, ?_, ih.2.2.2⟩
    · simp only [runMax, applyEv, he, List.length_cons, List.length_singleton,
        List.length_nil]
      have h1 := ih.1
      omega
    · simp only [coupledOk, applyEv, he, List.dropLast_concat]
      simp [ih.2.1]
    · simp only [applyAll, List.foldl_cons, applyEv, he]
      exact ih.2.2.1

theorem runMax_lock_nil (a b : List Ev) :
    runMax [] (Ev.lock [] :: a ++ b) =
      max (runMax [[]] a) (runMax (applyAll [[]] a) b) := by
  show runMax [] (Ev.lock [] :: (a ++ b)) = _
  rw [runMax, runMax_append]
  simp [applyEv]

theorem coupledOk_lock_nil (a b : List Ev) :
    coupledOk [] (Ev.lock [] :: a ++ b) =
      (coupledOk [[]] a && coupledOk (applyAll [[]] a) b) := by
  show coupledOk [] (Ev.lock [] :: (a ++ b)) = _
  rw [coupledOk, coupledOk_append]
  simp

theorem applyAll_lock_nil (a b : List Ev) :
    applyAll [] (Ev.lock [] :: a ++ b) = applyAll (applyAll [[]] a) b := by
  show applyAll [] (Ev.lock [] :: (a ++ b)) = _
  rw [show applyAll [] (Ev.lock [] :: (a ++ b)) = applyAll [[]] (a ++ b) from rfl,
    applyAll_append]

/-- Assembly of a full operation trace `lock head :: search events ++ finish
events` from the behaviour of its two phases. -/
theorem opTrace_spec (s suffix : List Ev) (H : List (List Bool)) (n : Nat)
    (h1 : runMax [[]] s ≤ 2) (h2 : coupledOk [[]] s = true)
    (h3 : applyAll [[]] s = H)
    (h4 : runMax H suffix ≤ n) (h5 : coupledOk H suffix = true)
    (h6 : applyAll H suffix = []) (hn : 2 ≤ n) :
    runMax [] (Ev.lock [] :: s ++ suffix) ≤ n ∧
    coupledOk [] (Ev.lock [] :: s ++ suffix) = true ∧
    applyAll [] (Ev.lock [] :: s ++ suffix) = [] := by
  refine ⟨?_, ?_, ?_⟩
  · rw [runMax_lock_nil, h3]
    omega
  · rw [coupledOk_lock_nil, h3, h2, h5]
    rfl
  · rw [applyAll_lock_nil, h3, h6]

/-- Lock behaviour of `db_query`: at most two locks held at any instant, every
child lock taken while its parent is held, and every lock released by the
end. -/
theorem queryTrace_spec (name : List Char) (t : Tree) :
    runMax [] (queryTrace name t) ≤ 2 ∧
    coupledOk [] (queryTrace name t) = true ∧
    applyAll [] (queryTrace name t) = [] := by
  cases t with
  | leaf => exact ⟨by simp [queryTrace, runMax], rfl, rfl⟩
  | node pk pv l r =>
    have hs := searchI_spec name (.node pk pv l r) pk pv l r rfl [] false
    rw [queryTrace]
    cases hf : (searchI name (.node pk pv l r) [] false).2.1 with
    | none =>
      have hend := hs.2.2.1 hf
      rw [if_neg (by simp)] at hend
      simp only [hf]
      exact opTrace_spec _ _ [] 2 hs.1 hs.2.1 hend (by simp [runMax]) rfl rfl le_rfl
    | some qs =>
      obtain ⟨q, sub⟩ := qs
      have hend := (hs.2.2.2 q sub hf).1
      rw [if_neg (by simp)] at hend
      simp only [hf]
      refine opTrace_spec _ _ [q] 2 hs.1 hs.2.1 hend ?_ ?_ ?_ le_rfl
      · simp [runMax, applyEv, List.erase_cons_head]
      · simp [coupledOk, applyEv, List.erase_cons_head]
      · simp [applyAll, applyEv, List.erase_cons_head]

/-- Lock behaviour of `db_add`: at most two locks held at any instant, every
child lock taken while its parent is held, every lock released by the end. -/
theorem addTrace_spec (name : List Char) (t : Tree) :
    runMax [] (addTrace name t) ≤ 2 ∧
    coupledOk [] (addTrace name t) = true ∧
    applyAll [] (addTrace name t) = [] := by
  cases t with
  | leaf => exact ⟨by simp [addTrace, runMax], rfl, rfl⟩
  | node pk pv l r =>
    have hs := searchI_spec name (.node pk pv l r) pk pv l r rfl [] true
    rw [addTrace]
    cases hf : (searchI name (.node pk pv l r) [] true).2.1 with
    | none =>
      have hend := hs.2.2.1 hf
      rw [if_pos rfl] at hend
      simp only [hf]
      refine opTrace_spec _ _ [(searchI name (.node pk pv l r) [] true).2.2] 2
        hs.1 hs.2.1 hend ?_ ?_ ?_ le_rfl
      · simp [runMax, applyEv, List.erase_cons_head]
      · simp [coupledOk, applyEv, List.erase_cons_head]
      · simp [applyAll, applyEv, List.erase_cons_head]
    | some qs =>
      obtain ⟨q, sub⟩ := qs
      have hend := (hs.2.2.2 q sub hf).1
      rw [if_pos rfl] at hend
      simp only [hf]
      refine opTrace_spec _ _ [q, (searchI name (.node pk pv l r) [] true).2.2] 2
        hs.1 hs.2.1 hend ?_ ?_ ?_ le_rfl
      · simp [runMax, applyEv, List.erase_cons_head]
      · simp [coupledOk, applyEv, List.erase_cons_head]
      · simp [applyAll, applyEv, List.erase_cons_head]

/-- Lock behaviour of `db_remove`: at most three locks held at any instant
(the deleted node plus the hand-over-hand pair of the successor descent),
every child lock taken while its parent is held, every lock released by the
end. -/
theorem removeTrace_spec (name : List Char) (t : Tree) :
    runMax [] (removeTrace name t) ≤ 3 ∧
    coupledOk [] (removeTrace name t) = true ∧
    applyAll [] (removeTrace name t) = [] := by
  cases t with
  | leaf => exact ⟨by simp [removeTrace, runMax], rfl, rfl⟩
  | node pk pv l r =>
    have hs := searchI_spec name (.node pk pv l r) pk pv l r rfl [] true
    rw [removeTrace]
    cases hf : (searchI name (.node pk pv l r) [] true).2.1 with
    | none =>
      have hend := hs.2.2.1 hf
      rw [if_pos rfl] at hend
      simp only [hf]
      refine opTrace_spec _ _ [(searchI name (.node pk pv l r) [] true).2.2] 3
        hs.1 hs.2.1 hend ?_ ?_ ?_ (by omega)
      · simp [runMax, applyEv, List.erase_cons_head]
      · simp [coupledOk, applyEv, List.erase_cons_head]
      · simp [applyAll, applyEv, List.erase_cons_head]
    | some qs =>
      obtain ⟨q, sub⟩ := qs
      have hend := (hs.2.2.2 q sub hf).1
      rw [if_pos rfl] at hend
      obtain ⟨d, hqd⟩ := (hs.2.2.2 q sub hf).2
      have hqpar : q ≠ (searchI name (.node pk pv l r) [] true).2.2 := by
        rw [hqd]
        exact append_singleton_ne _ _
      have herase : List.erase [q, (searchI name (.node pk pv l r) [] true).2.2]
          (searchI name (.node pk pv l r) [] true).2.2 = [q] := erase_two hqpar
      simp only [hf]
      cases sub with
      | leaf =>
        refine opTrace_spec _ _ [q, (searchI name (.node pk pv l r) [] true).2.2] 3
          hs.1 hs.2.1 hend ?_ ?_ ?_ (by omega)
        · simp [runMax, applyEv, List.erase_cons_head]
        · simp [coupledOk, applyEv, List.erase_cons_head]
        · simp [applyAll, applyEv, List.erase_cons_head]
      | node dk dv dl dr =>
        cases dr with
        | leaf =>
          refine opTrace_spec _ _ [q, (searchI name (.node pk pv l r) [] true).2.2] 3
            hs.1 hs.2.1 hend ?_ ?_ ?_ (by omega)
          · simp [runMax, applyEv, List.erase_cons_head]
          · simp [coupledOk, applyEv, List.erase_cons_head]
          · simp [applyAll, applyEv, List.erase_cons_head]
        | node rk rv rl rr =>
          cases dl with
          | leaf =>
            refine opTrace_spec _ _ [q, (searchI name (.node pk pv l r) [] true).2.2] 3
              hs.1 hs.2.1 hend ?_ ?_ ?_ (by omega)
            · simp [runMax, applyEv, List.erase_cons_head]
            · simp [coupledOk, applyEv, List.erase_cons_head]
            · simp [applyAll, applyEv, List.erase_cons_head]
          | node lk lv ll lr =>
            have hq1 : q.length < (q ++ [true]).length := by
              simp only [List.length_append, List.length_singleton]
              omega
            have hsp := spineTrace_spec (.node rk rv rl rr) q (q ++ [true]) hq1
            have hne2 : (spineTrace (.node rk rv rl rr) (q ++ [true])).2 ≠ q :=
              ne_of_length_lt hsp.2.2.2
            refine opTrace_spec _
              (Ev.unlock (searchI name (.node pk pv l r) [] true).2.2 ::
                Ev.lock (q ++ [true]) ::
                ((spineTrace (.node rk rv rl rr) (q ++ [true])).1 ++
                 [Ev.unlock q,
                  Ev.unlock (spineTrace (.node rk rv rl rr) (q ++ [true])).2]))
              [q, (searchI name (.node pk pv l r) [] true).2.2] 3
              hs.1 hs.2.1 hend ?_ ?_ ?_ (by omega)
            · rw [runMax, runMax, runMax_append]
              simp only [applyEv, herase]
              rw [hsp.2.2.1]
              have h2 := hsp.1
              have h3 : runMax [(spineTrace (.node rk rv rl rr) (q ++ [true])).2, q]
                  [Ev.unlock q,
                   Ev.unlock (spineTrace (.node rk rv rl rr) (q ++ [true])).2] ≤ 2 := by
                simp [runMax, applyEv, List.erase_cons, hne2, List.erase_cons_head]
              simp only [List.length_cons, List.length_singleton, List.length_nil] at *
              omega
            · rw [coupledOk, coupledOk, coupledOk_append]
              simp only [applyEv, herase]
              rw [hsp.2.2.1]
              simp [coupledOk, applyEv, hsp.2.1, List.dropLast_concat, List.erase_cons,
                hne2, List.erase_cons_head]
            · rw [show applyAll [q, (searchI name (.node pk pv l r) [] true).2.2]
                  (Ev.unlock (searchI name (.node pk pv l r) [] true).2.2 ::
                    Ev.lock (q ++ [true]) ::
                    ((spineTrace (.node rk rv rl rr) (q ++ [true])).1 ++
                     [Ev.unlock q,
                      Ev.unlock (spineTrace (.node rk rv rl rr) (q ++ [true])).2])) =
                applyAll (applyEv (applyEv [q, (searchI name (.node pk pv l r) [] true).2.2]
                    (Ev.unlock (searchI name (.node pk pv l r) [] true).2.2))
                    (Ev.lock (q ++ [true])))
                  ((spineTrace (.node rk rv rl rr) (q ++ [true])).1 ++
                   [Ev.unlock q,
                    Ev.unlock (spineTrace (.node rk rv rl rr) (q ++ [true])).2]) from rfl]
              simp only [applyEv, herase]
              rw [applyAll_append, hsp.2.2.1]
              simp [applyAll, applyEv, List.erase_cons, hne2, List.erase_cons_head]

/-! ## Interpreter-level facts -/

/-- The claim's "required argument tokens cannot be parsed": one `%255s`
token for `q`/`d`/`f`, two for `a`. -/
def tokensFail (c : Char) (rest : List Char) : Bool :=
  if c = 'a' then
    match scanToken rest with
    | none => true
    | some (_, r2) => (scanToken r2).isNone
  else (scanToken rest).isNone

theorem interpret_illFormed_iff (c : Char) (rest : List Char) :
    interpret_command (c :: rest) = Cmd.illFormed ↔
      ((c :: rest).length ≤ 1 ∨ (c ≠ 'q' ∧ c ≠ 'a' ∧ c ≠ 'd' ∧ c ≠ 'f') ∨
        tokensFail c rest = true) := by
  by_cases hlen : rest.length = 0
  · simp [interpret_command, hlen]
  · have hlen2 : ¬((c :: rest).length ≤ 1) := by
      simp only [List.length_cons]
      omega
    have hne : rest ≠ [] := by
      intro h
      rw [h] at hlen
      exact hlen rfl
    by_cases hq : c = 'q'
    · subst hq
      simp only [interpret_command, if_neg hlen, if_pos rfl, tokensFail]
      cases hst : scanToken rest with
      | none => simp [hlen2, hst]
      | some nr => simp [hlen2, hst, hne]
    · by_cases ha : c = 'a'
      · subst ha
        simp only [interpret_command, if_neg hlen, if_neg (by decide : ¬('a' = 'q')),
          if_pos rfl, tokensFail, if_pos rfl]
        cases hst : scanToken rest with
        | none => simp [hlen2, hst]
        | some nr =>
          obtain ⟨n, r2⟩ := nr
          cases hst2 : scanToken r2 with
          | none => simp [hlen2, hst, hst2]
          | some vr => simp [hlen2, hst, hst2, hne]
      · by_cases hd : c = 'd'
        · subst hd
          simp only [interpret_command, if_neg hlen, if_neg (by decide : ¬('d' = 'q')),
            if_neg (by decide : ¬('d' = 'a')), if_pos rfl, tokensFail]
          cases hst : scanToken rest with
          | none => simp [hlen2, hst]
          | some nr => simp [hlen2, hst, hne]
        · by_cases hf : c = 'f'
          · subst hf
            simp only [interpret_command, if_neg hlen, if_neg (by decide : ¬('f' = 'q')),
              if_neg (by decide : ¬('f' = 'a')), if_neg (by decide : ¬('f' = 'd')),
              if_pos rfl, tokensFail]
            cases hst : scanToken rest with
            | none => simp [hlen2, hst]
            | some nr => simp [hlen2, hst, hne]
          · simp [interpret_command, hlen, hq, ha, hd, hf, hlen2]

theorem interpret_dispatch (c : Char) (rest : List Char) (n r2 : List Char)
    (hlen : rest.length ≠ 0) (hst : scanToken rest = some (n, r2)) :
    (c = 'q' → interpret_command (c :: rest) = Cmd.query n) ∧
    (c = 'd' → interpret_command (c :: rest) = Cmd.del n) ∧
    (c = 'f' → interpret_command (c :: rest) = Cmd.file n) ∧
    (c = 'a' → ∀ v r3, scanToken r2 = some (v, r3) →
      interpret_command (c :: rest) = Cmd.add n v) := by
  refine ⟨?_, ?_, ?_, ?_⟩
  · rintro rfl
    simp [interpret_command, hlen, hst]
  · rintro rfl
    simp [interpret_command, hlen, hst]
  · rintro rfl
    simp [interpret_command, hlen, hst]
  · rintro rfl
    intro v r3 hst2
    simp [interpret_command, hlen, hst, hst2]

/-! ## The claims -/

/-- The specification's two-children removal scenario: from the empty
database, insert keys `d, b, a, c, f, e, g` (each value equal to its key). -/
def scenarioTree : Tree :=
  List.foldl (fun t k => (db_add k k true t).2) head0
    [['d'], ['b'], ['a'], ['c'], ['f'], ['e'], ['g']]

/-- The scenario state after `remove("d")`. -/
def scenarioAfter : Tree := (db_remove ['d'] scenarioTree).2

/-- C1, counterexample: in the two-children removal scenario the claim's
expected outcome — `lookup("d")` returns `"e"` and `lookup("e")` returns
NotFound — is false of the code: `db_remove` copies the successor's key *and*
value into the target node, so key `"d"` is gone and key `"e"` survives. -/
theorem claim_C1_counterexample :
    ¬(db_query ['d'] scenarioAfter = some ['e'] ∧
      db_query ['e'] scenarioAfter = none) := by
  decide

/-- C1, amended: after inserting `d, b, a, c, f, e, g` (values equal to keys)
and removing `"d"`, the removal reports success, `lookup("d")` returns
NotFound, `lookup("e")` returns `"e"` (the former in-order successor keeps
its key, now occupying `"d"`'s old node), the tree satisfies the ordering
invariant, and a full dump prints exactly the pre-order
`e, b, a, c, f, g`. -/
theorem claim_C1_amended :
    (db_remove ['d'] scenarioTree).1 = true ∧
    db_query ['d'] scenarioAfter = none ∧
    db_query ['e'] scenarioAfter = some ['e'] ∧
    bst scenarioAfter = true ∧
    dumpKVs (db_print scenarioAfter) =
      [(['e'], ['e']), (['b'], ['b']), (['a'], ['a']), (['c'], ['c']),
       (['f'], ['f']), (['g'], ['g'])] := by
  decide

/-- C2: evaluation of the code at the failing input.  For a key of length 257
(`> MAXLEN`), `node_constructor` fails and returns 0, yet `db_add` — which
never checks the constructor's result — still returns 1 ("added") while
linking the null pointer, leaving the map unchanged: the insert is a silent
no-op reported as a success, and a subsequent lookup finds nothing.  The same
happens when allocation fails on a well-formed key (second group).  This
contradicts the specified error handling, under which a failed node creation
must not report Inserted. -/
theorem claim_C2_code_eval :
    (node_constructor (List.replicate 257 'a') ['v'] true = none ∧
      db_add (List.replicate 257 'a') ['v'] true head0 = (true, head0) ∧
      db_query (List.replicate 257 'a')
        (db_add (List.replicate 257 'a') ['v'] true head0).2 = none) ∧
    (node_constructor ['k'] ['v'] false = none ∧
      db_add ['k'] ['v'] false head0 = (true, head0) ∧
      db_query ['k'] (db_add ['k'] ['v'] false head0).2 = none) := by
  decide

/-- C3, counterexample: from the reachable state that contains key `"a"` with
value `"x"` (built from the empty map by one insert), `insert("a", "y")`
followed by `lookup("a")` returns the old value `"x"`, not `"y"` — the insert
is an AlreadyExists no-op, so the claim fails for keys already present. -/
theorem claim_C3_counterexample :
    db_query ['a']
      ((db_add ['a'] ['y'] true ((db_add ['a'] ['x'] true head0).2)).2) ≠
      some ['y'] := by
  decide

/-- C3, amended: for every key and value of length at most 255 (the stored
bound) and every state in which the key is absent, `insert(k, v)` reports
Inserted and an immediately following `lookup(k)` returns `v`. -/
theorem claim_C3_amended (l r : Tree) (name value : List Char)
    (hn : name.length ≤ 255) (hv : value.length ≤ 255)
    (habsent : db_query name (.node [] [] l r) = none) :
    (db_add name value true (.node [] [] l r)).1 = true ∧
    db_query name (db_add name value true (.node [] [] l r)).2 = some value :=
  db_add_then_search name value hn hv (.node [] [] l r) [] [] l r rfl habsent

/-- C3, witness. -/
theorem claim_C3_witness :
    (db_add ['b'] ['x'] true (.node [] [] .leaf .leaf)).1 = true ∧
    db_query ['b'] (db_add ['b'] ['x'] true (.node [] [] .leaf .leaf)).2 =
      some ['x'] :=
  claim_C3_amended .leaf .leaf ['b'] ['x'] (by decide) (by decide) (by decide)

/-- C4: `db_add` and `db_remove` preserve the ordering invariant (together
with the stored-length invariant `shortKeys`, which makes the state
reachable), for every legal key — nonempty, as required by the sentinel
design, and within the 255-byte stored bound; both restrictions hold for
every key produced by the command interface (`scanToken`).  `db_query` and
`db_print` do not modify the tree, so they preserve the invariant
trivially. -/
theorem claim_C4 (l r : Tree) (k v : List Char) (a : Bool)
    (hk : k ≠ []) (hlen : k.length ≤ 255)
    (hb : bst (.node [] [] l r) = true)
    (hs : shortKeys (.node [] [] l r) = true) :
    (bst (db_add k v a (.node [] [] l r)).2 = true ∧
      shortKeys (db_add k v a (.node [] [] l r)).2 = true) ∧
    (bst (db_remove k (.node [] [] l r)).2 = true ∧
      shortKeys (db_remove k (.node [] [] l r)).2 = true) := by
  refine ⟨⟨?_, db_add_short k v a _ hs⟩, db_remove_bst k _ hb hs,
    db_remove_short k _ hs⟩
  refine db_add_bst k v a hlen _ hb ?_
  intro pk2 pv2 l2 r2 heq
  injection heq with e1 e2 e3 e4
  rw [← e1]
  intro hc
  exact hk ((strcmp_eq_iff k []).mp hc)

/-- C4, witness. -/
theorem claim_C4_witness :
    (bst (db_add ['b'] ['x'] true (.node [] [] .leaf .leaf)).2 = true ∧
      shortKeys (db_add ['b'] ['x'] true (.node [] [] .leaf .leaf)).2 = true) ∧
    (bst (db_remove ['b'] (.node [] [] .leaf .leaf)).2 = true ∧
      shortKeys (db_remove ['b'] (.node [] [] .leaf .leaf)).2 = true) :=
  claim_C4 .leaf .leaf ['b'] ['x'] true (by decide) (by decide) (by decide)
    (by decide)

/-- C5: on every invariant state, the dump output's key/value lines are
exactly the pre-order traversal of the user tree (the sentinel prints as
`(root)` and null children as `(null)`, fixing the tree shape), and the key
sequence of that tree read in-order is strictly increasing. -/
theorem claim_C5 (l r : Tree) (hb : bst (.node [] [] l r) = true) :
    dumpKVs (db_print (.node [] [] l r)) = preorderKV l ++ preorderKV r ∧
    List.Pairwise (fun a b => strcmp a b = Ordering.lt)
      (inorderKeys l ++ inorderKeys r) := by
  constructor
  · rw [db_print]
    rw [show db_print_recurs (.node [] [] l r) true 0 =
      (0, Entry.root) :: (db_print_recurs l false 1 ++ db_print_recurs r false 1)
      from rfl]
    rw [show ((0, Entry.root) :: (db_print_recurs l false 1 ++
        db_print_recurs r false 1)) = [(0, Entry.root)] ++
        (db_print_recurs l false 1 ++ db_print_recurs r false 1) from rfl]
    rw [dumpKVs_append, dumpKVs_append, dumpKVs_recurs, dumpKVs_recurs]
    rfl
  · have hl : l = .leaf := allB_lt_nil_leaf l (bst_node.mp hb).1
    subst hl
    simp only [inorderKeys, List.nil_append]
    exact bst_pairwise r (bst_node.mp hb).2.2.2

/-- C5, witness. -/
theorem claim_C5_witness :
    dumpKVs (db_print (.node [] [] .leaf (.node ['b'] ['x'] .leaf .leaf))) =
      preorderKV .leaf ++ preorderKV (.node ['b'] ['x'] .leaf .leaf) ∧
    List.Pairwise (fun a b => strcmp a b = Ordering.lt)
      (inorderKeys .leaf ++ inorderKeys (.node ['b'] ['x'] .leaf .leaf)) :=
  claim_C5 .leaf (.node ['b'] ['x'] .leaf .leaf) (by decide)

/-- C6: if key `k` is stored with value `v1` in an invariant state, then
`insert(k, v2)` returns AlreadyExists (0) and leaves the tree unchanged, and
a subsequent `lookup(k)` still returns `v1`. -/
theorem claim_C6 (l r : Tree) (k v1 v2 : List Char) (a : Bool)
    (hb : bst (.node [] [] l r) = true)
    (hm : (k, v1) ∈ preorderKV l ++ preorderKV r) :
    db_add k v2 a (.node [] [] l r) = (false, .node [] [] l r) ∧
    db_query k (db_add k v2 a (.node [] [] l r)).2 = some v1 := by
  have hfound : searchVal k (.node [] [] l r) = some v1 :=
    searchVal_complete (.node [] [] l r) hb [] [] l r rfl hm
  have hnoop := searchVal_found_add k v2 a _ hfound
  refine ⟨hnoop, ?_⟩
  rw [hnoop]
  exact hfound

/-- C6, witness. -/
theorem claim_C6_witness :
    db_add ['b'] ['y'] true
        (.node [] [] .leaf (.node ['b'] ['x'] .leaf .leaf)) =
      (false, .node [] [] .leaf (.node ['b'] ['x'] .leaf .leaf)) ∧
    db_query ['b'] (db_add ['b'] ['y'] true
        (.node [] [] .leaf (.node ['b'] ['x'] .leaf .leaf))).2 = some ['x'] :=
  claim_C6 .leaf (.node ['b'] ['x'] .leaf .leaf) ['b'] ['x'] ['y'] true
    (by decide) (by decide)

/-- C7: the sentinel root node survives every operation with its empty key
and value intact — `db_add` and `db_remove` only ever rebuild its subtrees —
and `db_cleanup` destroys exactly the nodes of the two subtrees (each exactly
once, shown by the permutation with the pre-order contents), never the
sentinel, whose key/value are untouched.  `search` can only return child
nodes it descended to, never the starting sentinel, which is the root kept by
the first two conjuncts. -/
theorem claim_C7 (l r : Tree) (name value : List Char) (a : Bool) :
    (∃ l2 r2, (db_add name value a (.node [] [] l r)).2 = .node [] [] l2 r2) ∧
    (∃ l2 r2, (db_remove name (.node [] [] l r)).2 = .node [] [] l2 r2) ∧
    db_cleanup (.node [] [] l r) = db_cleanup_recurs l ++ db_cleanup_recurs r ∧
    (db_cleanup (.node [] [] l r)).Perm (preorderKV l ++ preorderKV r) := by
  refine ⟨db_add_root name value a [] [] l r, db_remove_root name [] [] l r,
    rfl, ?_⟩
  rw [db_cleanup]
  exact List.Perm.append (db_cleanup_recurs_perm l) (db_cleanup_recurs_perm r)

/-- C8, counterexample: the claim's "at most two node locks held
simultaneously during the descent" is false for `db_remove`: in the reachable
scenario state, removing `"d"` (a node with two children) reaches three
simultaneously held locks — the deleted node plus the hand-over-hand pair of
the successor descent. -/
theorem claim_C8_counterexample :
    2 < runMax [] (removeTrace ['d'] scenarioTree) := by
  decide

/-- C8, amended: in every descent the next node's lock is acquired before the
current node's lock is released — concretely, every lock acquisition of a
non-root node happens while the thread itself holds the parent's lock
(`coupledOk`), so the thread always holds an endpoint of the edge it crosses
— and at most two locks are held simultaneously by `lookup` and `insert`,
while `remove` holds at most three (the deleted node plus the coupled pair of
its successor descent).  Every operation ends with all its locks released. -/
theorem claim_C8_amended (name : List Char) (t : Tree) :
    (runMax [] (queryTrace name t) ≤ 2 ∧
      coupledOk [] (queryTrace name t) = true ∧
      applyAll [] (queryTrace name t) = []) ∧
    (runMax [] (addTrace name t) ≤ 2 ∧
      coupledOk [] (addTrace name t) = true ∧
      applyAll [] (addTrace name t) = []) ∧
    (runMax [] (removeTrace name t) ≤ 3 ∧
      coupledOk [] (removeTrace name t) = true ∧
      applyAll [] (removeTrace name t) = []) :=
  ⟨queryTrace_spec name t, addTrace_spec name t, removeTrace_spec name t⟩

/-- C9: `interpret_command` dispatches on the first byte only.  A line
beginning `"quit"` is a query for key `"uit"`; any line of length at least 2
whose first byte is `q`/`d`/`f` (resp. `a`) with parseable token(s) is the
corresponding operation on the tokens parsed from the remainder; and the
reply is "ill-formed command" exactly when the line's length is at most 1,
its first byte is none of the four command letters, or the required tokens
cannot be parsed. -/
theorem claim_C9 :
    interpret_command ['q', 'u', 'i', 't'] = Cmd.query ['u', 'i', 't'] ∧
    (interpret_command [] = Cmd.illFormed ∧
      ∀ (c : Char) (rest : List Char),
        (interpret_command (c :: rest) = Cmd.illFormed ↔
          ((c :: rest).length ≤ 1 ∨ (c ≠ 'q' ∧ c ≠ 'a' ∧ c ≠ 'd' ∧ c ≠ 'f') ∨
            tokensFail c rest = true))) ∧
    (∀ (c : Char) (rest n r2 : List Char), rest.length ≠ 0 →
      scanToken rest = some (n, r2) →
      (c = 'q' → interpret_command (c :: rest) = Cmd.query n) ∧
      (c = 'd' → interpret_command (c :: rest) = Cmd.del n) ∧
      (c = 'f' → interpret_command (c :: rest) = Cmd.file n) ∧
      (c = 'a' → ∀ v r3, scanToken r2 = some (v, r3) →
        interpret_command (c :: rest) = Cmd.add n v)) :=
  ⟨by decide, ⟨rfl, interpret_illFormed_iff⟩, interpret_dispatch⟩

/-- C9, witness. -/
theorem claim_C9_witness : interpret_command ['d', 'x'] = Cmd.del ['x'] :=
  (claim_C9.2.2 'd' ['x'] ['x'] [] (by decide) (by decide)).2.1 rfl

/-- C10: `node_constructor` rejects a key or value exactly when its length
exceeds 256 (`MAXLEN`), but stores only a 255-byte truncation of each
(`snprintf` with size `MAXLEN`).  Consequently, inserting a key of exactly
256 bytes reports "added" while storing its 255-byte prefix: looking up the
original 256-byte key then returns NotFound, while looking up the 255-byte
prefix returns the value. -/
theorem claim_C10 :
    (∀ k v : List Char, node_constructor k v true =
      (if k.length > 256 ∨ v.length > 256 then none
       else some (.node (k.take 255) (v.take 255) .leaf .leaf))) ∧
    db_add (List.replicate 256 'a') ['x'] true head0 =
      (true, .node [] [] .leaf
        (.node (List.replicate 255 'a') ['x'] .leaf .leaf)) ∧
    db_query (List.replicate 256 'a')
      (db_add (List.replicate 256 'a') ['x'] true head0).2 = none ∧
    db_query (List.replicate 255 'a')
      (db_add (List.replicate 256 'a') ['x'] true head0).2 = some ['x'] := by
  refine ⟨?_, by decide, by decide, by decide⟩
  intro k v
  unfold node_constructor MAXLEN snprintf_copy
  by_cases h : k.length > 256 ∨ v.length > 256
  · rw [if_pos h, if_pos h]
  · rw [if_neg h, if_neg h, if_neg (by simp)]

end Db
